import Mathlib

/-!
# Verification of the fast-bridge-common event/codec module

Shallow embedding of `src/lib.rs`: the `EthAddress` textual codec, the
Borsh binary codec for `TransferMessage` (with its asymmetric tolerance
for the trailing optional field), and the NEP-297 JSON event envelope
(`Event`, `emit_event`, `removePrefix`).

Machine integers are modelled as `Nat` with explicit bounds; byte streams
are `List Nat` (each entry a byte value); fallible reads return `Option`.
-/

namespace FastBridgeCommon

/-! ## Byte-level primitives (Borsh little-endian integers) -/

/-- Little-endian byte encoding of a natural number into `w` bytes,
as Borsh writes fixed-width integers. -/
def toLE : Nat → Nat → List Nat
  | 0, _ => []
  | w + 1, n => (n % 256) :: toLE w (n / 256)

/-- Little-endian byte decoding, inverse of `toLE`. -/
def fromLE : List Nat → Nat
  | [] => 0
  | b :: bs => b + 256 * fromLE bs

theorem toLE_length (w n : Nat) : (toLE w n).length = w := by
  induction w generalizing n with
  | zero => rfl
  | succ w ih => simp [toLE, ih]

theorem fromLE_toLE (w n : Nat) (h : n < 256 ^ w) : fromLE (toLE w n) = n := by
  induction w generalizing n with
  | zero =>
    simp [toLE, fromLE]
    omega
  | succ w ih =>
    have hd : n / 256 < 256 ^ w := by
      rw [Nat.div_lt_iff_lt_mul (by norm_num : 0 < 256)]
      calc n < 256 ^ (w + 1) := h
        _ = 256 ^ w * 256 := by ring
    simp [toLE, fromLE, ih _ hd]
    omega

/-- Read exactly `n` bytes from the front of a stream; fail when the
stream is shorter. -/
def readBytes : Nat → List Nat → Option (List Nat × List Nat)
  | 0, d => some ([], d)
  | _ + 1, [] => none
  | n + 1, b :: d =>
    match readBytes n d with
    | some (bs, rest) => some (b :: bs, rest)
    | none => none

theorem readBytes_append (xs rest : List Nat) :
    readBytes xs.length (xs ++ rest) = some (xs, rest) := by
  induction xs with
  | nil => rfl
  | cons b bs ih => simp [readBytes, ih]

theorem readBytes_exact (n : Nat) (xs rest : List Nat) (h : xs.length = n) :
    readBytes n (xs ++ rest) = some (xs, rest) := h ▸ readBytes_append xs rest

/-- Read a Borsh `u32` (4-byte little-endian length prefix). -/
def readU32 (d : List Nat) : Option (Nat × List Nat) :=
  match readBytes 4 d with
  | some (bs, rest) => some (fromLE bs, rest)
  | none => none

/-- Read a Borsh `u64` (8-byte little-endian). -/
def readU64 (d : List Nat) : Option (Nat × List Nat) :=
  match readBytes 8 d with
  | some (bs, rest) => some (fromLE bs, rest)
  | none => none

/-- Read a Borsh `u128` (16-byte little-endian). -/
def readU128 (d : List Nat) : Option (Nat × List Nat) :=
  match readBytes 16 d with
  | some (bs, rest) => some (fromLE bs, rest)
  | none => none

/-- Borsh serialization of a `u32`. -/
def u32ToBytes (n : Nat) : List Nat := toLE 4 n

/-- Borsh serialization of a `u64`. -/
def u64ToBytes (n : Nat) : List Nat := toLE 8 n

/-- Borsh serialization of a `u128`. -/
def u128ToBytes (n : Nat) : List Nat := toLE 16 n

theorem readU32_append (n : Nat) (rest : List Nat) (h : n < 256 ^ 4) :
    readU32 (u32ToBytes n ++ rest) = some (n, rest) := by
  rw [readU32, u32ToBytes, readBytes_exact 4 _ _ (toLE_length 4 n)]
  simp [fromLE_toLE 4 n h]

theorem readU64_append (n : Nat) (rest : List Nat) (h : n < 256 ^ 8) :
    readU64 (u64ToBytes n ++ rest) = some (n, rest) := by
  rw [readU64, u64ToBytes, readBytes_exact 8 _ _ (toLE_length 8 n)]
  simp [fromLE_toLE 8 n h]

theorem readU128_append (n : Nat) (rest : List Nat) (h : n < 256 ^ 16) :
    readU128 (u128ToBytes n ++ rest) = some (n, rest) := by
  rw [readU128, u128ToBytes, readBytes_exact 16 _ _ (toLE_length 16 n)]
  simp [fromLE_toLE 16 n h]

/-! ## UTF-8 validity (checked by Borsh `String` deserialization) -/

/-- For a UTF-8 lead byte, the list of admissible `(lo, hi)` ranges for
its continuation bytes (RFC 3629 table: no overlong encodings, no
surrogates, at most 4-byte sequences); `none` for an invalid lead byte. -/
def utf8Ranges (b : Nat) : Option (List (Nat × Nat)) :=
  if b ≤ 0x7F then some []
  else if 0xC2 ≤ b && b ≤ 0xDF then some [(0x80, 0xBF)]
  else if b = 0xE0 then some [(0xA0, 0xBF), (0x80, 0xBF)]
  else if (0xE1 ≤ b && b ≤ 0xEC) || b = 0xEE || b = 0xEF then
    some [(0x80, 0xBF), (0x80, 0xBF)]
  else if b = 0xED then some [(0x80, 0x9F), (0x80, 0xBF)]
  else if b = 0xF0 then some [(0x90, 0xBF), (0x80, 0xBF), (0x80, 0xBF)]
  else if 0xF1 ≤ b && b ≤ 0xF3 then
    some [(0x80, 0xBF), (0x80, 0xBF), (0x80, 0xBF)]
  else if b = 0xF4 then some [(0x80, 0x8F), (0x80, 0xBF), (0x80, 0xBF)]
  else none

/-- UTF-8 validation as a byte-at-a-time automaton; `pending` lists the
range constraints still owed by the current multi-byte sequence. -/
def utf8Loop : List Nat → List (Nat × Nat) → Bool
  | [], pending => pending.isEmpty
  | b :: rest, [] =>
    match utf8Ranges b with
    | some rs => utf8Loop rest rs
    | none => false
  | b :: rest, (lo, hi) :: rs =>
    if lo ≤ b && b ≤ hi then utf8Loop rest rs else false

/-- UTF-8 validity of a byte sequence, as checked by Rust
`String::from_utf8` during Borsh `String` deserialization. -/
def validUtf8 (l : List Nat) : Bool := utf8Loop l []

/-- ASCII byte sequences are valid UTF-8. -/
theorem ascii_validUtf8 (l : List Nat) (h : ∀ b ∈ l, b ≤ 0x7F) :
    validUtf8 l = true := by
  unfold validUtf8
  induction l with
  | nil => rfl
  | cons b rest ih =>
    have hb : b ≤ 0x7F := h b (List.mem_cons_self b rest)
    have hr : utf8Ranges b = some [] := by simp [utf8Ranges, hb]
    rw [utf8Loop, hr]
    exact ih fun x hx => h x (List.mem_cons_of_mem b hx)

/-! ## NEAR account-identifier validation

The `AccountId` collaborator validates during Borsh deserialization:
length 2..=64; bytes drawn from lowercase ASCII letters, digits and the
separators `-`, `_`, `.`; no leading, trailing or doubled separator. -/

/-- The separator state machine of NEAR account-id validation:
`lastSep` records whether the previous byte was a separator (initially
true, so a leading separator is rejected). -/
def validAccountLoop : List Nat → Bool → Bool
  | [], lastSep => !lastSep
  | b :: r, lastSep =>
    if (97 ≤ b && b ≤ 122) || (48 ≤ b && b ≤ 57) then validAccountLoop r false
    else if b = 45 || b = 95 || b = 46 then
      if lastSep then false else validAccountLoop r true
    else false

/-- NEAR account-id validity (length bounds plus character state machine). -/
def isValidAccountId (a : List Nat) : Bool :=
  2 ≤ a.length && a.length ≤ 64 && validAccountLoop a true

theorem validAccountLoop_ascii (l : List Nat) (s : Bool)
    (h : validAccountLoop l s = true) : ∀ b ∈ l, b ≤ 0x7F := by
  induction l generalizing s with
  | nil => intro b hb; cases hb
  | cons c r ih =>
    intro b hb
    rw [validAccountLoop] at h
    by_cases h1 : ((97 ≤ c && c ≤ 122) || (48 ≤ c && c ≤ 57)) = true
    · rw [if_pos h1] at h
      rcases List.mem_cons.mp hb with hbc | hbr
      · subst hbc
        simp only [Bool.and_eq_true, Bool.or_eq_true, decide_eq_true_eq] at h1
        omega
      · exact ih false h b hbr
    · rw [if_neg h1] at h
      by_cases h2 : (c = 45 || c = 95 || c = 46) = true
      · rw [if_pos h2] at h
        cases s with
        | true => cases h
        | false =>
          rcases List.mem_cons.mp hb with hbc | hbr
          · subst hbc
            simp only [Bool.or_eq_true, decide_eq_true_eq] at h2
            omega
          · exact ih true h b hbr
      · rw [if_neg h2] at h; cases h

/-- Valid account ids are ASCII, hence valid UTF-8. -/
theorem isValidAccountId_validUtf8 (a : List Nat) (h : isValidAccountId a = true) :
    validUtf8 a = true := by
  have h3 : validAccountLoop a true = true := by
    simp only [isValidAccountId, Bool.and_eq_true] at h
    exact h.2
  exact ascii_validUtf8 a (validAccountLoop_ascii a true h3)

/-- Valid account ids have at most 64 bytes. -/
theorem isValidAccountId_length (a : List Nat) (h : isValidAccountId a = true) :
    a.length ≤ 64 := by
  simp only [isValidAccountId, Bool.and_eq_true, decide_eq_true_eq] at h
  exact h.1.2

/-! ## Domain records (`src/lib.rs` lines 12-77) -/

/-- `EthAddress(pub [u8; 20])`: a fixed 20-byte Ethereum address
(the `[u8; 20]` payload modelled as a byte list). -/
structure EthAddress where
  bytes : List Nat
deriving DecidableEq

/-- `TransferDataEthereum { token_near: AccountId, token_eth: EthAddress,
amount: U128 }`; the account id is carried as its UTF-8 bytes. -/
structure TransferDataEthereum where
  token_near : List Nat
  token_eth : EthAddress
  amount : Nat
deriving DecidableEq

/-- `TransferDataNear { token: AccountId, amount: U128 }`. -/
structure TransferDataNear where
  token : List Nat
  amount : Nat
deriving DecidableEq

/-- `TransferMessage` (`src/lib.rs` lines 68-77). -/
structure TransferMessage where
  valid_till : Nat
  transfer : TransferDataEthereum
  fee : TransferDataNear
  recipient : EthAddress
  valid_till_block_height : Option Nat
  aurora_sender : Option EthAddress
deriving DecidableEq

/-! ### Well-formedness: the invariants the Rust types carry by
construction (integer widths, address width, validated account ids). -/

/-- The `[u8; 20]` invariant of `EthAddress`. -/
def wfEthAddress (e : EthAddress) : Bool :=
  e.bytes.length = 20 && e.bytes.all (· < 256)

def wfTransferDataEthereum (t : TransferDataEthereum) : Bool :=
  isValidAccountId t.token_near && wfEthAddress t.token_eth && t.amount < 2 ^ 128

def wfTransferDataNear (t : TransferDataNear) : Bool :=
  isValidAccountId t.token && t.amount < 2 ^ 128

def wfTransferMessage (m : TransferMessage) : Bool :=
  m.valid_till < 2 ^ 64 && wfTransferDataEthereum m.transfer &&
    wfTransferDataNear m.fee && wfEthAddress m.recipient &&
    (match m.valid_till_block_height with
     | none => true
     | some v => v < 2 ^ 64) &&
    (match m.aurora_sender with
     | none => true
     | some a => wfEthAddress a)

/-! ## Borsh readers for the domain types -/

/-- Borsh `AccountId` read: `u32` length prefix, that many bytes, the
UTF-8 check of `String::deserialize`, then NEAR account validation
(near-sdk's `AccountId` impl converts through `TryFrom<String>`). -/
def readAccountId (d : List Nat) : Option (List Nat × List Nat) :=
  match readU32 d with
  | none => none
  | some (len, d1) =>
    match readBytes len d1 with
    | none => none
    | some (bs, rest) =>
      if validUtf8 bs && isValidAccountId bs then some (bs, rest) else none

/-- Borsh read of `EthAddress` (`[u8; 20]`: 20 raw bytes, derived impl,
no length prefix and no validation of the byte values). -/
def readEthAddress (d : List Nat) : Option (EthAddress × List Nat) :=
  match readBytes 20 d with
  | none => none
  | some (bs, rest) => some (⟨bs⟩, rest)

/-- Borsh read of an `Option<T>`: one presence-flag byte, `0` for `None`,
`1` followed by the value for `Some`; any other flag byte is an error. -/
def readOption (rd : List Nat → Option (α × List Nat)) (d : List Nat) :
    Option (Option α × List Nat) :=
  match d with
  | [] => none
  | b :: r =>
    if b = 0 then some (none, r)
    else if b = 1 then
      match rd r with
      | some (x, rest) => some (some x, rest)
      | none => none
    else none

/-- Derived Borsh read of `TransferDataEthereum` (fields in declaration
order). -/
def readTransferDataEthereum (d : List Nat) :
    Option (TransferDataEthereum × List Nat) :=
  match readAccountId d with
  | none => none
  | some (token_near, d1) =>
    match readEthAddress d1 with
    | none => none
    | some (token_eth, d2) =>
      match readU128 d2 with
      | none => none
      | some (amount, rest) => some ({ token_near, token_eth, amount }, rest)

/-- Derived Borsh read of `TransferDataNear`. -/
def readTransferDataNear (d : List Nat) :
    Option (TransferDataNear × List Nat) :=
  match readAccountId d with
  | none => none
  | some (token, d1) =>
    match readU128 d1 with
    | none => none
    | some (amount, rest) => some ({ token, amount }, rest)

/-- `TransferMessage::deserialize` (`src/lib.rs` lines 79-91): the five
leading reads propagate failure with `?`; only the final `aurora_sender`
read is wrapped in `.unwrap_or(None)`. -/
def transferMessageDeserialize (d : List Nat) :
    Option (TransferMessage × List Nat) :=
  match readU64 d with
  | none => none
  | some (valid_till, d1) =>
  match readTransferDataEthereum d1 with
  | none => none
  | some (transfer, d2) =>
  match readTransferDataNear d2 with
  | none => none
  | some (fee, d3) =>
  match readEthAddress d3 with
  | none => none
  | some (recipient, d4) =>
  match readOption readU64 d4 with
  | none => none
  | some (valid_till_block_height, d5) =>
  match readOption readEthAddress d5 with
  | some (aurora_sender, d6) =>
    some ({ valid_till, transfer, fee, recipient, valid_till_block_height,
            aurora_sender }, d6)
  | none =>
    some ({ valid_till, transfer, fee, recipient, valid_till_block_height,
            aurora_sender := none }, d5)

/-! ## Borsh serializers (derived `BorshSerialize`, fields in declaration
order) -/

/-- Borsh `AccountId`/`String` serialization: `u32` byte length then the
UTF-8 bytes. -/
def accountIdToBytes (a : List Nat) : List Nat := u32ToBytes a.length ++ a

/-- Borsh `EthAddress` serialization: the 20 raw array bytes. -/
def ethAddressToBytes (e : EthAddress) : List Nat := e.bytes

/-- Borsh `Option<T>` serialization: presence flag then the value. -/
def optionToBytes (ser : α → List Nat) : Option α → List Nat
  | none => [0]
  | some x => 1 :: ser x

def transferDataEthereumToBytes (t : TransferDataEthereum) : List Nat :=
  accountIdToBytes t.token_near ++ ethAddressToBytes t.token_eth ++
    u128ToBytes t.amount

def transferDataNearToBytes (t : TransferDataNear) : List Nat :=
  accountIdToBytes t.token ++ u128ToBytes t.amount

/-- The four non-optional leading fields of the `TransferMessage` wire
format. -/
def serializeFirst4 (m : TransferMessage) : List Nat :=
  u64ToBytes m.valid_till ++ transferDataEthereumToBytes m.transfer ++
    transferDataNearToBytes m.fee ++ ethAddressToBytes m.recipient

/-- The wire format up to and including `valid_till_block_height`
(everything except the trailing `aurora_sender`). -/
def serializeFirst5 (m : TransferMessage) : List Nat :=
  serializeFirst4 m ++ optionToBytes u64ToBytes m.valid_till_block_height

/-- Derived `BorshSerialize` for `TransferMessage`. -/
def transferMessageSerialize (m : TransferMessage) : List Nat :=
  serializeFirst5 m ++ optionToBytes ethAddressToBytes m.aurora_sender

/-! ### Reader/serializer round-trip lemmas -/

theorem readAccountId_append (a : List Nat) (rest : List Nat)
    (h : isValidAccountId a = true) :
    readAccountId (accountIdToBytes a ++ rest) = some (a, rest) := by
  have hlen : a.length < 256 ^ 4 := by
    have := isValidAccountId_length a h
    omega
  rw [readAccountId, accountIdToBytes, List.append_assoc,
    readU32_append a.length (a ++ rest) hlen]
  simp [readBytes_append, isValidAccountId_validUtf8 a h, h]

theorem readEthAddress_raw (rb rest : List Nat) (h : rb.length = 20) :
    readEthAddress (rb ++ rest) = some (⟨rb⟩, rest) := by
  rw [readEthAddress, readBytes_exact 20 _ _ h]

theorem readEthAddress_append (e : EthAddress) (rest : List Nat)
    (h : e.bytes.length = 20) :
    readEthAddress (ethAddressToBytes e ++ rest) = some (e, rest) :=
  readEthAddress_raw e.bytes rest h

theorem readOption_append {α : Type} (ser : α → List Nat)
    (rd : List Nat → Option (α × List Nat)) (o : Option α) (rest : List Nat)
    (h : ∀ x, o = some x → rd (ser x ++ rest) = some (x, rest)) :
    readOption rd (optionToBytes ser o ++ rest) = some (o, rest) := by
  cases o with
  | none => simp [optionToBytes, readOption]
  | some x => simp [optionToBytes, readOption, h x rfl]

theorem readTransferDataEthereum_append (t : TransferDataEthereum)
    (rest : List Nat) (h : wfTransferDataEthereum t = true) :
    readTransferDataEthereum (transferDataEthereumToBytes t ++ rest) =
      some (t, rest) := by
  simp only [wfTransferDataEthereum, Bool.and_eq_true, decide_eq_true_eq] at h
  obtain ⟨⟨hacc, heth⟩, ham⟩ := h
  have h20 : t.token_eth.bytes.length = 20 := by
    simp only [wfEthAddress, Bool.and_eq_true, decide_eq_true_eq] at heth
    exact heth.1
  have ham' : t.amount < 256 ^ 16 := by norm_num at ham ⊢; omega
  rw [readTransferDataEthereum, transferDataEthereumToBytes,
    List.append_assoc, List.append_assoc,
    readAccountId_append t.token_near _ hacc]
  simp only [readEthAddress_append t.token_eth _ h20,
    readU128_append t.amount rest ham']

theorem readTransferDataNear_append (t : TransferDataNear)
    (rest : List Nat) (h : wfTransferDataNear t = true) :
    readTransferDataNear (transferDataNearToBytes t ++ rest) =
      some (t, rest) := by
  simp only [wfTransferDataNear, Bool.and_eq_true, decide_eq_true_eq] at h
  obtain ⟨hacc, ham⟩ := h
  have ham' : t.amount < 256 ^ 16 := by norm_num at ham ⊢; omega
  rw [readTransferDataNear, transferDataNearToBytes, List.append_assoc,
    readAccountId_append t.token _ hacc]
  simp only [readU128_append t.amount rest ham']

/-- Decoding a full wire image assembled from well-formed parts, with an
arbitrary 20-byte block in recipient position, recovers every field. -/
theorem decode_fields (vt : Nat) (tr : TransferDataEthereum)
    (fee : TransferDataNear) (rb : List Nat) (vtbh : Option Nat)
    (asnd : Option EthAddress)
    (hvt : vt < 2 ^ 64) (htr : wfTransferDataEthereum tr = true)
    (hfee : wfTransferDataNear fee = true) (hrb : rb.length = 20)
    (hvtbh : ∀ v, vtbh = some v → v < 2 ^ 64)
    (hasnd : ∀ a, asnd = some a → a.bytes.length = 20) :
    transferMessageDeserialize
      (u64ToBytes vt ++ transferDataEthereumToBytes tr ++
        transferDataNearToBytes fee ++ rb ++
        optionToBytes u64ToBytes vtbh ++ optionToBytes ethAddressToBytes asnd) =
      some ({ valid_till := vt, transfer := tr, fee := fee,
              recipient := ⟨rb⟩, valid_till_block_height := vtbh,
              aurora_sender := asnd }, []) := by
  have hvt' : vt < 256 ^ 8 := by norm_num at hvt ⊢; omega
  rw [transferMessageDeserialize, List.append_assoc, List.append_assoc,
    List.append_assoc, List.append_assoc,
    readU64_append vt _ hvt']
  simp only [readTransferDataEthereum_append tr _ htr,
    readTransferDataNear_append fee _ hfee]
  rw [readEthAddress_raw rb _ hrb]
  have hv : readOption readU64
      (optionToBytes u64ToBytes vtbh ++ optionToBytes ethAddressToBytes asnd) =
      some (vtbh, optionToBytes ethAddressToBytes asnd) := by
    refine readOption_append _ _ _ _ fun v hveq => ?_
    have hv' : v < 256 ^ 8 := by
      have := hvtbh v hveq
      norm_num at this ⊢
      omega
    exact readU64_append v _ hv'
  have ha : readOption readEthAddress
      (optionToBytes ethAddressToBytes asnd ++ ([] : List Nat)) =
      some (asnd, []) := by
    refine readOption_append _ _ _ _ fun a haeq => ?_
    exact readEthAddress_append a [] (hasnd a haeq)
  rw [List.append_nil] at ha
  simp only [hv, ha]

/-- Boundary variant: a stream that ends immediately after
`valid_till_block_height` decodes, with `aurora_sender` defaulting to
absent. -/
theorem decode_first5_nil (vt : Nat) (tr : TransferDataEthereum)
    (fee : TransferDataNear) (rb : List Nat) (vtbh : Option Nat)
    (hvt : vt < 2 ^ 64) (htr : wfTransferDataEthereum tr = true)
    (hfee : wfTransferDataNear fee = true) (hrb : rb.length = 20)
    (hvtbh : ∀ v, vtbh = some v → v < 2 ^ 64) :
    transferMessageDeserialize
      (u64ToBytes vt ++ transferDataEthereumToBytes tr ++
        transferDataNearToBytes fee ++ rb ++ optionToBytes u64ToBytes vtbh) =
      some ({ valid_till := vt, transfer := tr, fee := fee,
              recipient := ⟨rb⟩, valid_till_block_height := vtbh,
              aurora_sender := none }, []) := by
  have hvt' : vt < 256 ^ 8 := by norm_num at hvt ⊢; omega
  rw [transferMessageDeserialize, List.append_assoc, List.append_assoc,
    List.append_assoc, readU64_append vt _ hvt']
  simp only [readTransferDataEthereum_append tr _ htr,
    readTransferDataNear_append fee _ hfee]
  rw [readEthAddress_raw rb _ hrb]
  have hv : readOption readU64 (optionToBytes u64ToBytes vtbh ++ []) =
      some (vtbh, []) := by
    refine readOption_append _ _ _ _ fun v hveq => ?_
    have hv' : v < 256 ^ 8 := by
      have := hvtbh v hveq
      norm_num at this ⊢
      omega
    exact readU64_append v _ hv'
  rw [List.append_nil] at hv
  simp only [hv]
  rfl

/-- Boundary variant: a stream that ends immediately after `recipient`
fails to decode — the `valid_till_block_height` read error propagates. -/
theorem decode_first4_none (vt : Nat) (tr : TransferDataEthereum)
    (fee : TransferDataNear) (rb : List Nat)
    (hvt : vt < 2 ^ 64) (htr : wfTransferDataEthereum tr = true)
    (hfee : wfTransferDataNear fee = true) (hrb : rb.length = 20) :
    transferMessageDeserialize
      (u64ToBytes vt ++ transferDataEthereumToBytes tr ++
        transferDataNearToBytes fee ++ rb) = none := by
  have hvt' : vt < 256 ^ 8 := by norm_num at hvt ⊢; omega
  rw [transferMessageDeserialize, List.append_assoc, List.append_assoc,
    readU64_append vt _ hvt']
  simp only [readTransferDataEthereum_append tr _ htr,
    readTransferDataNear_append fee _ hfee]
  have : rb ++ ([] : List Nat) = rb := List.append_nil rb
  rw [← this, readEthAddress_raw rb _ hrb]
  rfl

theorem list_set_append_right {α : Type} (l1 l2 : List α) (i : Nat) (b : α) :
    (l1 ++ l2).set (l1.length + i) b = l1 ++ l2.set i b := by
  induction l1 with
  | nil => simp
  | cons x xs ih => simp [Nat.succ_add, ih]

theorem list_set_append_left {α : Type} (l1 l2 : List α) (i : Nat) (b : α)
    (h : i < l1.length) :
    (l1 ++ l2).set i b = l1.set i b ++ l2 := by
  induction l1 generalizing i with
  | nil => simp at h
  | cons x xs ih =>
    cases i with
    | zero => simp
    | succ n => simpa using ih n (by simpa using h)

/-! ## Concrete example data for witnesses and counterexamples -/

/-- UTF-8 bytes of the account id `token.near`. -/
def tokenAccount : List Nat := [116, 111, 107, 101, 110, 46, 110, 101, 97, 114]

/-- The 20 bytes of the address `71c7656ec7ab88b098defb751b7401b5f6d8976f`. -/
def exampleEthBytes : List Nat :=
  [0x71, 0xC7, 0x65, 0x6E, 0xC7, 0xAB, 0x88, 0xB0, 0x98, 0xDE,
   0xFB, 0x75, 0x1B, 0x74, 0x01, 0xB5, 0xF6, 0xD8, 0x97, 0x6F]

/-- A transfer message in the oldest shape: both optional fields absent. -/
def exampleTransferMessage : TransferMessage :=
  { valid_till := 7,
    transfer := { token_near := tokenAccount, token_eth := ⟨exampleEthBytes⟩,
                  amount := 100 },
    fee := { token := tokenAccount, amount := 100 },
    recipient := ⟨List.replicate 20 0⟩,
    valid_till_block_height := none,
    aurora_sender := none }

/-- A transfer message in the newest shape: both optional fields present. -/
def exampleTransferMessage2 : TransferMessage :=
  { valid_till := 7,
    transfer := { token_near := tokenAccount, token_eth := ⟨exampleEthBytes⟩,
                  amount := 100 },
    fee := { token := tokenAccount, amount := 100 },
    recipient := ⟨exampleEthBytes⟩,
    valid_till_block_height := some 5,
    aurora_sender := some ⟨List.replicate 20 0⟩ }

/-! ## Claim C1 -/

/-- C1, as stated, is false on the code: for the valid encoding of
`exampleTransferMessage` truncated so the byte stream ends immediately
after `recipient` (both trailing optional fields and their presence
flags removed), decode does not succeed — the `valid_till_block_height`
read error propagates through `?`. -/
theorem C1_counterexample :
    transferMessageSerialize exampleTransferMessage =
      serializeFirst4 exampleTransferMessage ++ [0, 0] ∧
    transferMessageDeserialize (serializeFirst4 exampleTransferMessage) =
      none := by
  constructor
  · decide
  · decide

/-- C1 (amended): truncating only the trailing `aurora_sender` field
(stream ends immediately after `valid_till_block_height`) decodes with
`aurora_sender` absent and all preceding fields preserved, but
truncating both trailing optional fields (stream ends immediately after
`recipient`) makes decode fail. -/
theorem C1_amended (m : TransferMessage) (h : wfTransferMessage m = true) :
    transferMessageDeserialize (serializeFirst4 m) = none ∧
    transferMessageDeserialize (serializeFirst5 m) =
      some ({ m with aurora_sender := none }, []) := by
  simp only [wfTransferMessage, Bool.and_eq_true, decide_eq_true_eq] at h
  obtain ⟨⟨⟨⟨⟨hvt, htr⟩, hfee⟩, hrec⟩, hvtbh⟩, -⟩ := h
  have hrb : m.recipient.bytes.length = 20 := by
    simp only [wfEthAddress, Bool.and_eq_true, decide_eq_true_eq] at hrec
    exact hrec.1
  have hv : ∀ v, m.valid_till_block_height = some v → v < 2 ^ 64 := by
    intro v hveq
    rw [hveq] at hvtbh
    simpa using hvtbh
  constructor
  · have := decode_first4_none m.valid_till m.transfer m.fee
      m.recipient.bytes hvt htr hfee hrb
    simpa [serializeFirst4, ethAddressToBytes] using this
  · have := decode_first5_nil m.valid_till m.transfer m.fee
      m.recipient.bytes m.valid_till_block_height hvt htr hfee hrb hv
    simpa [serializeFirst5, serializeFirst4, ethAddressToBytes] using this

theorem C1_amended_witness :
    transferMessageDeserialize (serializeFirst4 exampleTransferMessage2) =
      none ∧
    transferMessageDeserialize (serializeFirst5 exampleTransferMessage2) =
      some ({ exampleTransferMessage2 with aurora_sender := none }, []) :=
  C1_amended exampleTransferMessage2 (by decide)

/-! ## Claim C2 -/

/-- C2: whenever the five leading fields read successfully and the
`aurora_sender` read then fails for any reason, decode succeeds with
`aurora_sender` absent and the preceding fields unchanged; in
particular, truncating the trailing presence-flag-plus-value of
`aurora_sender` from any encoding yields bytes that decode to the same
message with `aurora_sender` absent. -/
theorem C2_aurora_tolerance :
    (∀ d d1 d2 d3 d4 d5 vt tr fee rec vtbh,
      readU64 d = some (vt, d1) →
      readTransferDataEthereum d1 = some (tr, d2) →
      readTransferDataNear d2 = some (fee, d3) →
      readEthAddress d3 = some (rec, d4) →
      readOption readU64 d4 = some (vtbh, d5) →
      readOption readEthAddress d5 = none →
      transferMessageDeserialize d =
        some ({ valid_till := vt, transfer := tr, fee := fee,
                recipient := rec, valid_till_block_height := vtbh,
                aurora_sender := none }, d5)) ∧
    (∀ m, wfTransferMessage m = true →
      transferMessageSerialize m =
        serializeFirst5 m ++ optionToBytes ethAddressToBytes m.aurora_sender ∧
      transferMessageDeserialize (serializeFirst5 m) =
        some ({ m with aurora_sender := none }, [])) := by
  constructor
  · intro d d1 d2 d3 d4 d5 vt tr fee rec vtbh h1 h2 h3 h4 h5 h6
    rw [transferMessageDeserialize, h1]
    simp only [h2, h3, h4, h5, h6]
  · intro m h
    refine ⟨rfl, ?_⟩
    simp only [wfTransferMessage, Bool.and_eq_true, decide_eq_true_eq] at h
    obtain ⟨⟨⟨⟨⟨hvt, htr⟩, hfee⟩, hrec⟩, hvtbh⟩, -⟩ := h
    have hrb : m.recipient.bytes.length = 20 := by
      simp only [wfEthAddress, Bool.and_eq_true, decide_eq_true_eq] at hrec
      exact hrec.1
    have hv : ∀ v, m.valid_till_block_height = some v → v < 2 ^ 64 := by
      intro v hveq
      rw [hveq] at hvtbh
      simpa using hvtbh
    have := decode_first5_nil m.valid_till m.transfer m.fee
      m.recipient.bytes m.valid_till_block_height hvt htr hfee hrb hv
    simpa [serializeFirst5, serializeFirst4, ethAddressToBytes] using this

theorem C2_witness :
    transferMessageSerialize exampleTransferMessage2 =
      serializeFirst5 exampleTransferMessage2 ++
        optionToBytes ethAddressToBytes exampleTransferMessage2.aurora_sender ∧
    transferMessageDeserialize (serializeFirst5 exampleTransferMessage2) =
      some ({ exampleTransferMessage2 with aurora_sender := none }, []) :=
  C2_aurora_tolerance.2 exampleTransferMessage2 (by decide)

/-! ## Claim C3 -/

/-- C3: for every well-formed `TransferMessage` (the well-formedness the
Rust types carry by construction), decoding the encoding returns the
original message with the stream fully consumed. -/
theorem C3_roundtrip (m : TransferMessage) (h : wfTransferMessage m = true) :
    transferMessageDeserialize (transferMessageSerialize m) = some (m, []) := by
  simp only [wfTransferMessage, Bool.and_eq_true, decide_eq_true_eq] at h
  obtain ⟨⟨⟨⟨⟨hvt, htr⟩, hfee⟩, hrec⟩, hvtbh⟩, hasnd⟩ := h
  have hrb : m.recipient.bytes.length = 20 := by
    simp only [wfEthAddress, Bool.and_eq_true, decide_eq_true_eq] at hrec
    exact hrec.1
  have hv : ∀ v, m.valid_till_block_height = some v → v < 2 ^ 64 := by
    intro v hveq
    rw [hveq] at hvtbh
    simpa using hvtbh
  have ha : ∀ a, m.aurora_sender = some a → a.bytes.length = 20 := by
    intro a haeq
    rw [haeq] at hasnd
    simp only [wfEthAddress, Bool.and_eq_true, decide_eq_true_eq] at hasnd
    exact hasnd.1
  have := decode_fields m.valid_till m.transfer m.fee m.recipient.bytes
    m.valid_till_block_height m.aurora_sender hvt htr hfee hrb hv ha
  simpa [transferMessageSerialize, serializeFirst5, serializeFirst4,
    ethAddressToBytes, List.append_assoc] using this

theorem C3_witness :
    wfTransferMessage exampleTransferMessage2 = true ∧
    transferMessageDeserialize
      (transferMessageSerialize exampleTransferMessage2) =
      some (exampleTransferMessage2, []) :=
  ⟨by decide, C3_roundtrip exampleTransferMessage2 (by decide)⟩

/-! ## Claim C4 -/

/-- C4, as stated, is false on the code: changing a byte inside the
`recipient` field of a valid encoding (here byte 88, the first recipient
byte, changed from 0 to 9) does not make decode fail — decode silently
succeeds with the altered recipient, because `[u8; 20]` carries no
redundancy. -/
theorem C4_counterexample :
    transferMessageDeserialize
      ((transferMessageSerialize exampleTransferMessage).set 88 9) =
      some ({ exampleTransferMessage with
              recipient := ⟨(List.replicate 20 0).set 0 9⟩ }, []) ∧
    ({ exampleTransferMessage with
       recipient := ⟨(List.replicate 20 0).set 0 9⟩ } : TransferMessage) ≠
      exampleTransferMessage := by
  constructor
  · decide
  · decide

/-- C4 (amended): changing a byte inside the `recipient` field of an
encoding silently decodes to the message with only the recipient
altered; decode does fail whenever one of the non-trailing field reads
(`valid_till`, `transfer`, `fee`, `recipient`,
`valid_till_block_height`) fails, since decode success requires all five
leading reads to succeed. -/
theorem C4_amended :
    (∀ m, wfTransferMessage m = true → ∀ i, i < 20 → ∀ b,
      transferMessageDeserialize
        ((transferMessageSerialize m).set
          (8 + (transferDataEthereumToBytes m.transfer).length +
            (transferDataNearToBytes m.fee).length + i) b) =
        some ({ m with recipient := ⟨m.recipient.bytes.set i b⟩ }, [])) ∧
    (∀ d m rest, transferMessageDeserialize d = some (m, rest) →
      ∃ d1 d2 d3 d4 d5,
        readU64 d = some (m.valid_till, d1) ∧
        readTransferDataEthereum d1 = some (m.transfer, d2) ∧
        readTransferDataNear d2 = some (m.fee, d3) ∧
        readEthAddress d3 = some (m.recipient, d4) ∧
        readOption readU64 d4 = some (m.valid_till_block_height, d5)) := by
  constructor
  · intro m h i hi b
    simp only [wfTransferMessage, Bool.and_eq_true, decide_eq_true_eq] at h
    obtain ⟨⟨⟨⟨⟨hvt, htr⟩, hfee⟩, hrec⟩, hvtbh⟩, hasnd⟩ := h
    have hrb : m.recipient.bytes.length = 20 := by
      simp only [wfEthAddress, Bool.and_eq_true, decide_eq_true_eq] at hrec
      exact hrec.1
    have hv : ∀ v, m.valid_till_block_height = some v → v < 2 ^ 64 := by
      intro v hveq
      rw [hveq] at hvtbh
      simpa using hvtbh
    have ha : ∀ a, m.aurora_sender = some a → a.bytes.length = 20 := by
      intro a haeq
      rw [haeq] at hasnd
      simp only [wfEthAddress, Bool.and_eq_true, decide_eq_true_eq] at hasnd
      exact hasnd.1
    have hform : transferMessageSerialize m =
        (u64ToBytes m.valid_till ++ (transferDataEthereumToBytes m.transfer ++
          transferDataNearToBytes m.fee)) ++
        (m.recipient.bytes ++
          (optionToBytes u64ToBytes m.valid_till_block_height ++
            optionToBytes ethAddressToBytes m.aurora_sender)) := by
      simp [transferMessageSerialize, serializeFirst5, serializeFirst4,
        ethAddressToBytes, List.append_assoc]
    have hpre : (u64ToBytes m.valid_till ++ (transferDataEthereumToBytes m.transfer ++
        transferDataNearToBytes m.fee)).length =
        8 + (transferDataEthereumToBytes m.transfer).length +
          (transferDataNearToBytes m.fee).length := by
      simp [List.length_append, u64ToBytes, toLE_length]
      omega
    have hidx : 8 + (transferDataEthereumToBytes m.transfer).length +
        (transferDataNearToBytes m.fee).length + i =
        (u64ToBytes m.valid_till ++ (transferDataEthereumToBytes m.transfer ++
          transferDataNearToBytes m.fee)).length + i := by
      rw [hpre]
    rw [hform, hidx, list_set_append_right,
      list_set_append_left m.recipient.bytes _ i b (by omega)]
    have hrb' : (m.recipient.bytes.set i b).length = 20 := by
      simpa [List.length_set] using hrb
    have := decode_fields m.valid_till m.transfer m.fee
      (m.recipient.bytes.set i b) m.valid_till_block_height m.aurora_sender
      hvt htr hfee hrb' hv ha
    simpa [List.append_assoc] using this
  · intro d m rest h
    rw [transferMessageDeserialize] at h
    split at h
    · exact Option.noConfusion h
    rename_i vt d1 h1
    split at h
    · exact Option.noConfusion h
    rename_i tr d2 h2
    split at h
    · exact Option.noConfusion h
    rename_i fee d3 h3
    split at h
    · exact Option.noConfusion h
    rename_i rec d4 h4
    split at h
    · exact Option.noConfusion h
    rename_i vtbh d5 h5
    split at h
    · rename_i asnd d6 h6
      simp only [Option.some.injEq, Prod.mk.injEq] at h
      obtain ⟨hm, -⟩ := h
      subst hm
      exact ⟨d1, d2, d3, d4, d5, h1, h2, h3, h4, h5⟩
    · rename_i h6
      simp only [Option.some.injEq, Prod.mk.injEq] at h
      obtain ⟨hm, -⟩ := h
      subst hm
      exact ⟨d1, d2, d3, d4, d5, h1, h2, h3, h4, h5⟩

theorem C4_amended_witness :
    transferMessageDeserialize
      ((transferMessageSerialize exampleTransferMessage2).set
        (8 + (transferDataEthereumToBytes exampleTransferMessage2.transfer).length +
          (transferDataNearToBytes exampleTransferMessage2.fee).length + 3) 77) =
      some ({ exampleTransferMessage2 with
              recipient := ⟨exampleTransferMessage2.recipient.bytes.set 3 77⟩ },
            []) :=
  C4_amended.1 exampleTransferMessage2 (by decide) 3 (by decide) 77

/-! ## Hex codec (`hex` crate: `Vec::from_hex`, `hex::encode`,
`hex::decode`) -/

/-- Value of a hex digit, accepting both cases; `none` otherwise. -/
def hexDigitVal (c : Char) : Option Nat :=
  if '0' ≤ c && c ≤ '9' then some (c.toNat - 48)
  else if 'a' ≤ c && c ≤ 'f' then some (c.toNat - 87)
  else if 'A' ≤ c && c ≤ 'F' then some (c.toNat - 55)
  else none

/-- `hex::decode` / `Vec::from_hex`: pairs of hex digits to bytes; fails
on odd length or on any non-hex character. -/
def hexDecode : List Char → Option (List Nat)
  | [] => some []
  | [_] => none
  | c1 :: c2 :: r =>
    match hexDigitVal c1, hexDigitVal c2, hexDecode r with
    | some hi, some lo, some rest => some ((16 * hi + lo) :: rest)
    | _, _, _ => none

/-- Lowercase hex digit for a value below 16. -/
def hexChar (n : Nat) : Char :=
  if n < 10 then Char.ofNat (48 + n) else Char.ofNat (87 + n)

/-- `hex::encode`: lowercase, two digits per byte, no prefix. -/
def hexEncode : List Nat → List Char
  | [] => []
  | b :: bs => hexChar (b / 16) :: hexChar (b % 16) :: hexEncode bs

/-! ## The two textual parse paths of `EthAddress` -/

/-- Outcome of `serde` deserialization of `EthAddress`: success, a typed
serde error carried out of the hex decode, or a Rust panic (the
`try_into().unwrap()` on a wrong-length byte vector). -/
inductive EthAddressDeserResult where
  | ok (a : EthAddress)
  | error
  | panic
deriving DecidableEq

/-- The `starts_with("0x")` strip of `EthAddress::deserialize`. -/
def strip0x : List Char → List Char
  | '0' :: 'x' :: r => r
  | s => s

/-- `EthAddress::deserialize` (`src/lib.rs` lines 15-27): strip an
optional `0x`, `Vec::from_hex` with a typed serde error on failure, then
`result.try_into().unwrap()` — a panic when the byte count is not 20. -/
def ethAddressDeserialize (s : List Char) : EthAddressDeserResult :=
  match hexDecode (strip0x s) with
  | none => .error
  | some bytes => if bytes.length = 20 then .ok ⟨bytes⟩ else .panic

/-- `EthAddress::serialize` (`src/lib.rs` lines 29-39):
`hex::encode(self.0)` — lowercase, unprefixed. -/
def ethAddressSerializeHex (e : EthAddress) : List Char := hexEncode e.bytes

/-- Outcome of `get_eth_address`: success or one of its two panics. -/
inductive GetEthAddressResult where
  | ok (a : EthAddress)
  | panicInvalidHex
  | panicWrongLength
deriving DecidableEq

/-- `get_eth_address` (`src/lib.rs` lines 128-134): `hex::decode` with
`env::panic_str` on failure, then `require!(data.len() == 20)`; note
there is no `0x` strip on this path. -/
def get_eth_address (address : List Char) : GetEthAddressResult :=
  match hexDecode address with
  | none => .panicInvalidHex
  | some data => if data.length = 20 then .ok ⟨data⟩ else .panicWrongLength

/-! ## Claim C6 -/

/-- C6, as stated, is false on the code: for input `"abcd"` (valid hex,
2 decoded bytes, so byte count is not 20), `EthAddress::deserialize`
does not fail with a typed error — it aborts with a panic at
`result.try_into().unwrap()`. -/
theorem C6_counterexample :
    ethAddressDeserialize "abcd".data = EthAddressDeserResult.panic ∧
    EthAddressDeserResult.panic ≠ EthAddressDeserResult.error := by
  constructor
  · decide
  · decide

/-- C6 (amended): parsing never succeeds for a hex-decoded byte count
other than 20, but only the non-hex case yields a typed error on the
serde path; valid hex of wrong length makes `EthAddress::deserialize`
panic via `unwrap`, while `get_eth_address` panics through its two
explicit checks. -/
theorem C6_amended (s : List Char) :
    (hexDecode (strip0x s) = none → ethAddressDeserialize s = .error) ∧
    (∀ bs, hexDecode (strip0x s) = some bs → bs.length ≠ 20 →
      ethAddressDeserialize s = .panic) ∧
    (∀ a, ethAddressDeserialize s = .ok a → a.bytes.length = 20) ∧
    (hexDecode s = none → get_eth_address s = .panicInvalidHex) ∧
    (∀ bs, hexDecode s = some bs → bs.length ≠ 20 →
      get_eth_address s = .panicWrongLength) ∧
    (∀ a, get_eth_address s = .ok a → a.bytes.length = 20) := by
  refine ⟨?_, ?_, ?_, ?_, ?_, ?_⟩
  · intro h
    rw [ethAddressDeserialize, h]
  · intro bs hbs hlen
    rw [ethAddressDeserialize, hbs]
    simp [hlen]
  · intro a ha
    rw [ethAddressDeserialize] at ha
    split at ha
    · exact EthAddressDeserResult.noConfusion ha
    rename_i bs hbs
    split at ha
    · rename_i hlen
      obtain rfl : EthAddress.mk bs = a := by
        exact EthAddressDeserResult.ok.inj ha
      exact hlen
    · exact EthAddressDeserResult.noConfusion ha
  · intro h
    rw [get_eth_address, h]
  · intro bs hbs hlen
    rw [get_eth_address, hbs]
    simp [hlen]
  · intro a ha
    rw [get_eth_address] at ha
    split at ha
    · exact GetEthAddressResult.noConfusion ha
    rename_i bs hbs
    split at ha
    · rename_i hlen
      obtain rfl : EthAddress.mk bs = a := by
        exact GetEthAddressResult.ok.inj ha
      exact hlen
    · exact GetEthAddressResult.noConfusion ha

theorem C6_amended_witness :
    ethAddressDeserialize "abcd".data = EthAddressDeserResult.panic ∧
    get_eth_address "zz".data = GetEthAddressResult.panicInvalidHex :=
  ⟨(C6_amended "abcd".data).2.1 [171, 205] (by decide) (by decide),
   (C6_amended "zz".data).2.2.2.1 (by decide)⟩

/-! ## Claim C7 -/

/-- C7: the mixed-case `0x`-prefixed and the lowercase unprefixed texts
parse (via `EthAddress::deserialize`) to the identical 20-byte value,
and serializing that value yields exactly the 40-character lowercase
unprefixed string. -/
theorem C7_eth_parse_serialize :
    ethAddressDeserialize "0x71C7656EC7ab88b098defB751B7401B5f6d8976F".data =
      EthAddressDeserResult.ok ⟨exampleEthBytes⟩ ∧
    ethAddressDeserialize "71c7656ec7ab88b098defb751b7401b5f6d8976f".data =
      EthAddressDeserResult.ok ⟨exampleEthBytes⟩ ∧
    ethAddressSerializeHex ⟨exampleEthBytes⟩ =
      "71c7656ec7ab88b098defb751b7401b5f6d8976f".data := by
  refine ⟨?_, ?_, ?_⟩ <;> decide

/-! ## Claim C9 -/

/-- C9: for every `0x`-prefixed input the helper `get_eth_address`
panics with its invalid-hex panic (`x` is not a hex digit and the
prefix is not stripped), while `EthAddress::deserialize` strips the
prefix and accepts the same string whenever the remainder is valid
20-byte hex — the module's two textual parse paths disagree on
`0x`-prefixed input. -/
theorem C9_parse_paths_disagree (t : List Char) :
    get_eth_address ('0' :: 'x' :: t) = .panicInvalidHex ∧
    (∀ bs, hexDecode t = some bs → bs.length = 20 →
      ethAddressDeserialize ('0' :: 'x' :: t) = .ok ⟨bs⟩) := by
  constructor
  · have hx : hexDecode ('0' :: 'x' :: t) = none := by
      simp [hexDecode, hexDigitVal]
    rw [get_eth_address, hx]
  · intro bs hbs hlen
    have hstrip : strip0x ('0' :: 'x' :: t) = t := rfl
    rw [ethAddressDeserialize, hstrip, hbs]
    simp [hlen]

theorem C9_witness :
    get_eth_address
      ('0' :: 'x' :: "71c7656ec7ab88b098defb751b7401b5f6d8976f".data) =
      GetEthAddressResult.panicInvalidHex ∧
    ethAddressDeserialize
      ('0' :: 'x' :: "71c7656ec7ab88b098defb751b7401b5f6d8976f".data) =
      EthAddressDeserResult.ok ⟨exampleEthBytes⟩ :=
  ⟨(C9_parse_paths_disagree _).1,
   (C9_parse_paths_disagree _).2 exampleEthBytes (by decide) (by decide)⟩

/-! ## JSON model

Modelled from the spec: the `serde_json` value fragment this module
emits and parses (objects, strings, unsigned integers, null), with
object members kept in serialization order — the spec's bit-exact log
line format fixes the member order of the envelope and of each struct
as declaration order. -/

mutual
inductive Json where
  | null : Json
  | num (n : Nat) : Json
  | str (s : List Char) : Json
  | obj (members : JsonMembers) : Json

inductive JsonMembers where
  | nil : JsonMembers
  | cons (key : List Char) (value : Json) (rest : JsonMembers) : JsonMembers
end

/-- Build an object member list from a plain list. -/
def JsonMembers.ofList : List (List Char × Json) → JsonMembers
  | [] => .nil
  | (k, v) :: r => .cons k v (ofList r)

/-- Decimal digit character. -/
def digitChar (n : Nat) : Char := Char.ofNat (48 + n)

/-- Fuel-driven decimal printer (the fuel argument only bounds the
recursion; `natDigits` supplies enough for any input). -/
def natDigitsAux : Nat → Nat → List Char
  | 0, _ => []
  | fuel + 1, n =>
    if n < 10 then [digitChar n]
    else natDigitsAux fuel (n / 10) ++ [digitChar (n % 10)]

/-- Decimal digits of a natural number, as produced by Rust integer
`Display` (no sign, no leading zeros). -/
def natDigits (n : Nat) : List Char := natDigitsAux (n + 1) n

theorem natDigitsAux_eq (f1 f2 n : Nat) (h1 : n < f1) (h2 : n < f2) :
    natDigitsAux f1 n = natDigitsAux f2 n := by
  induction n using Nat.strong_induction_on generalizing f1 f2 with
  | _ n ih =>
    cases f1 with
    | zero => omega
    | succ f1 =>
      cases f2 with
      | zero => omega
      | succ f2 =>
        by_cases hn : n < 10
        · simp [natDigitsAux, hn]
        · have hlt : n / 10 < n := Nat.div_lt_self (by omega) (by omega)
          simp only [natDigitsAux, if_neg hn]
          rw [ih (n / 10) hlt (f1) (f2) (by omega) (by omega)]

/-- The defining recurrence of `natDigits`. -/
theorem natDigits_step (n : Nat) :
    natDigits n =
      if n < 10 then [digitChar n]
      else natDigits (n / 10) ++ [digitChar (n % 10)] := by
  by_cases hn : n < 10
  · simp [natDigits, natDigitsAux, hn]
  · have hlt : n / 10 < n := Nat.div_lt_self (by omega) (by omega)
    rw [if_neg hn]
    unfold natDigits
    conv_lhs => rw [natDigitsAux]
    rw [if_neg hn, natDigitsAux_eq n (n / 10 + 1) (n / 10) hlt (by omega)]

/-- Modelled from the spec: `serde_json` string escaping, restricted to
the two escapable characters that can reach this module's output
alphabet (quote and backslash); every other character passes through. -/
def escapeChar (c : Char) : List Char :=
  if c = '"' then ['\\', '"']
  else if c = '\\' then ['\\', '\\']
  else [c]

def escapeChars : List Char → List Char
  | [] => []
  | c :: r => escapeChar c ++ escapeChars r

mutual
/-- Modelled from the spec: compact `serde_json` rendering
(`Value::to_string`) of the fragment — no whitespace, members in
order, strings quoted and escaped, unsigned integers in decimal. -/
def renderJson : Json → List Char
  | .null => ['n', 'u', 'l', 'l']
  | .num n => natDigits n
  | .str s => '"' :: escapeChars s ++ ['"']
  | .obj .nil => ['{', '}']
  | .obj (.cons k v r) =>
    '{' :: ('"' :: escapeChars k ++ '"' :: ':' :: renderJson v) ++
      renderTail r ++ ['}']

/-- Second and later object members, each preceded by a comma. -/
def renderTail : JsonMembers → List Char
  | .nil => []
  | .cons k v r =>
    ',' :: ('"' :: escapeChars k ++ '"' :: ':' :: renderJson v) ++
      renderTail r
end

/-- One rendered object member (key, colon, value). -/
def renderMemberK (k : List Char) (v : Json) : List Char :=
  '"' :: escapeChars k ++ '"' :: ':' :: renderJson v

theorem renderJson_obj_cons (k : List Char) (v : Json) (r : JsonMembers) :
    renderJson (.obj (.cons k v r)) =
      '{' :: renderMemberK k v ++ renderTail r ++ ['}'] := rfl

theorem renderTail_cons (k : List Char) (v : Json) (r : JsonMembers) :
    renderTail (.cons k v r) = ',' :: renderMemberK k v ++ renderTail r := rfl

/-! ## JSON parser (modelled from the spec: `serde_json::from_str` on
the emitted fragment) -/

def isWsChar (c : Char) : Bool := c = ' ' || c = '\t' || c = '\n' || c = '\r'

def skipWs : List Char → List Char
  | [] => []
  | c :: r => if isWsChar c then skipWs r else c :: r

def isDigitChar (c : Char) : Bool := 48 ≤ c.toNat && c.toNat ≤ 57

/-- String content after the opening quote, up to the closing quote,
with the two modelled escapes. -/
def parseStrChars : List Char → Option (List Char × List Char)
  | [] => none
  | '"' :: r => some ([], r)
  | '\\' :: [] => none
  | '\\' :: e :: r2 =>
    if e = '"' || e = '\\' then
      match parseStrChars r2 with
      | some (cs, rest) => some (e :: cs, rest)
      | none => none
    else none
  | c :: r =>
    match parseStrChars r with
    | some (cs, rest) => some (c :: cs, rest)
    | none => none

/-- Longest digit prefix and the remainder. -/
def takeDigits : List Char → List Char × List Char
  | [] => ([], [])
  | c :: r =>
    if isDigitChar c then
      match takeDigits r with
      | (ds, rest) => (c :: ds, rest)
    else ([], c :: r)

/-- Value of a digit string, most significant first. -/
def digitsVal (ds : List Char) : Nat :=
  ds.foldl (fun acc c => 10 * acc + (c.toNat - 48)) 0

mutual
/-- Parse one JSON value of the modelled fragment. The fuel bounds
recursion depth; `parseJson` supplies input length plus one, which the
round-trip proof shows sufficient. -/
def parseVal : Nat → List Char → Option (Json × List Char)
  | 0, _ => none
  | fuel + 1, cs =>
    match skipWs cs with
    | [] => none
    | c :: r =>
      if c = '{' then
        match skipWs r with
        | '}' :: r2 => some (.obj .nil, r2)
        | _ =>
          match parseMembers fuel r with
          | some (kvs, rest) => some (.obj kvs, rest)
          | none => none
      else if c = '"' then
        match parseStrChars r with
        | some (content, rest) => some (.str content, rest)
        | none => none
      else if c = 'n' then
        match r with
        | 'u' :: 'l' :: 'l' :: r2 => some (.null, r2)
        | _ => none
      else if isDigitChar c then
        match takeDigits (c :: r) with
        | (ds, rest) => some (.num (digitsVal ds), rest)
      else none

/-- Parse a nonempty member sequence and the closing brace. -/
def parseMembers : Nat → List Char → Option (JsonMembers × List Char)
  | 0, _ => none
  | fuel + 1, cs =>
    match skipWs cs with
    | '"' :: r =>
      match parseStrChars r with
      | some (key, r2) =>
        match skipWs r2 with
        | ':' :: r3 =>
          match parseVal fuel r3 with
          | some (v, r4) =>
            match skipWs r4 with
            | ',' :: r5 =>
              match parseMembers fuel r5 with
              | some (kvs, rest) => some (.cons key v kvs, rest)
              | none => none
            | '}' :: r5 => some (.cons key v .nil, r5)
            | _ => none
          | none => none
        | _ => none
      | none => none
    | _ => none
end

/-- Modelled from the spec: `serde_json::from_str` — one JSON value,
then nothing but whitespace. -/
def parseJson (cs : List Char) : Option Json :=
  match parseVal (cs.length + 1) cs with
  | some (v, rest) => if skipWs rest = [] then some v else none
  | none => none

/-! ## Event envelope (`src/lib.rs` lines 8-10, 93-126, 136-172) -/

def STANDARD : List Char := "nep297".data

def VERSION : List Char := "1.0.0".data

def EVENT_JSON_STR : List Char := "EVENT_JSON:".data

/-- `str.strip_prefix` on the literal prefix. -/
def stripPrefixChars : List Char → List Char → Option (List Char)
  | [], s => some s
  | _ :: _, [] => none
  | p :: ps, c :: cs => if p = c then stripPrefixChars ps cs else none

/-- `remove_prefix` (`src/lib.rs` lines 136-143), named `removePrefix` here: strip `EVENT_JSON:`
and parse the remainder as JSON; absent on either failure. -/
def removePrefix (event_str : List Char) : Option Json :=
  match stripPrefixChars EVENT_JSON_STR event_str with
  | some value => parseJson value
  | none => none

/-- near-sdk `U128` JSON form: decimal digits as a JSON string. -/
def u128ToJson (n : Nat) : Json := .str (natDigits n)

/-- `AccountId` JSON form: the account text (account ids are ASCII, so
each byte is one character). -/
def accountToJson (a : List Nat) : Json := .str (a.map Char.ofNat)

/-- `EthAddress` serde serialization inside JSON: lowercase unprefixed
hex (`src/lib.rs` lines 29-39). -/
def ethAddressToJson (e : EthAddress) : Json := .str (hexEncode e.bytes)

/-- serde `Option` serialization: `null` when absent. -/
def optionToJson {α : Type} (f : α → Json) : Option α → Json
  | none => .null
  | some x => f x

/-- serde serialization of `TransferMessage`: fields in declaration
order, `u64` as a JSON number, `U128` as a decimal string. -/
def transferMessageToJson (m : TransferMessage) : Json :=
  .obj (.ofList
    [("valid_till".data, .num m.valid_till),
     ("transfer".data, .obj (.ofList
        [("token_near".data, accountToJson m.transfer.token_near),
         ("token_eth".data, ethAddressToJson m.transfer.token_eth),
         ("amount".data, u128ToJson m.transfer.amount)])),
     ("fee".data, .obj (.ofList
        [("token".data, accountToJson m.fee.token),
         ("amount".data, u128ToJson m.fee.amount)])),
     ("recipient".data, ethAddressToJson m.recipient),
     ("valid_till_block_height".data,
       optionToJson Json.num m.valid_till_block_height),
     ("aurora_sender".data,
       optionToJson ethAddressToJson m.aurora_sender)])

/-- The `Event` enum (`src/lib.rs` lines 93-126). -/
inductive Event where
  | FastBridgeInitTransferEvent (nonce : Nat) (sender_id : List Nat)
      (transfer_message : TransferMessage)
  | FastBridgeUnlockEvent (nonce : Nat) (recipient_id : List Nat)
      (transfer_message : TransferMessage)
  | FastBridgeLpUnlockEvent (nonce : Nat) (recipient_id : List Nat)
      (transfer_message : TransferMessage)
  | FastBridgeDepositEvent (sender_id : List Nat) (token : List Nat)
      (amount : Nat)
  | FastBridgeWithdrawEvent (sender_id : Option (List Nat))
      (recipient_id : List Nat) (token : List Nat) (amount : Nat)

/-- The snake_case variant tag produced by serde
`#[serde(rename_all = "snake_case")]`. -/
def eventTag : Event → List Char
  | .FastBridgeInitTransferEvent .. => "fast_bridge_init_transfer_event".data
  | .FastBridgeUnlockEvent .. => "fast_bridge_unlock_event".data
  | .FastBridgeLpUnlockEvent .. => "fast_bridge_lp_unlock_event".data
  | .FastBridgeDepositEvent .. => "fast_bridge_deposit_event".data
  | .FastBridgeWithdrawEvent .. => "fast_bridge_withdraw_event".data

/-- The `data` object of the adjacently tagged serde form (variant
fields in declaration order, names verbatim). -/
def eventData : Event → Json
  | .FastBridgeInitTransferEvent nonce sender_id tm =>
    .obj (.ofList [("nonce".data, u128ToJson nonce),
                   ("sender_id".data, accountToJson sender_id),
                   ("transfer_message".data, transferMessageToJson tm)])
  | .FastBridgeUnlockEvent nonce recipient_id tm =>
    .obj (.ofList [("nonce".data, u128ToJson nonce),
                   ("recipient_id".data, accountToJson recipient_id),
                   ("transfer_message".data, transferMessageToJson tm)])
  | .FastBridgeLpUnlockEvent nonce recipient_id tm =>
    .obj (.ofList [("nonce".data, u128ToJson nonce),
                   ("recipient_id".data, accountToJson recipient_id),
                   ("transfer_message".data, transferMessageToJson tm)])
  | .FastBridgeDepositEvent sender_id token amount =>
    .obj (.ofList [("sender_id".data, accountToJson sender_id),
                   ("token".data, accountToJson token),
                   ("amount".data, u128ToJson amount)])
  | .FastBridgeWithdrawEvent sender_id recipient_id token amount =>
    .obj (.ofList [("sender_id".data, optionToJson accountToJson sender_id),
                   ("recipient_id".data, accountToJson recipient_id),
                   ("token".data, accountToJson token),
                   ("amount".data, u128ToJson amount)])

/-- `#[serde(tag = "event", content = "data")]`: the adjacently tagged
JSON form of an `Event`. -/
def eventToJson (e : Event) : Json :=
  .obj (.ofList [("event".data, .str (eventTag e)),
                 ("data".data, eventData e)])

/-- `serde_json::Value` string indexing on the member list (first
match; `Null` when missing). -/
def jsonIndexMembers : JsonMembers → List Char → Json
  | .nil, _ => .null
  | .cons k v r, key => if k = key then v else jsonIndexMembers r key

/-- `serde_json::Value` string indexing (`result["event"]`): `Null`
for non-objects and missing keys. -/
def jsonIndex (j : Json) (key : List Char) : Json :=
  match j with
  | .obj ms => jsonIndexMembers ms key
  | _ => .null

/-- `emit_event` (`src/lib.rs` lines 161-172): serialize the event,
rewrap into the `EventMessage` envelope (struct fields serialize in
declaration order: standard, version, event, data), render compactly
and prepend `EVENT_JSON:`; the result is the one line written to the
log sink. -/
def emit_event (e : Event) : List Char :=
  let result := eventToJson e
  EVENT_JSON_STR ++
    renderJson (.obj (.ofList
      [("standard".data, .str STANDARD),
       ("version".data, .str VERSION),
       ("event".data, jsonIndex result "event".data),
       ("data".data, jsonIndex result "data".data)]))

/-- UTF-8 bytes of an ASCII string literal, for concrete inputs. -/
def strToBytes (s : String) : List Nat := s.data.map Char.toNat

/-! ## Claim C5 -/

/-- C5: emitting a deposit event with sender `alice.near`, token
`token.near` and amount 300 writes exactly the NEP-297 line of the
spec, with the 128-bit amount as a quoted decimal string, the
snake_case variant tag, and the four envelope keys. -/
theorem C5_deposit_emit_line :
    emit_event (.FastBridgeDepositEvent (strToBytes "alice.near")
      (strToBytes "token.near") 300) =
      ("EVENT_JSON:\x7b\"standard\":\"nep297\",\"version\":\"1.0.0\"," ++
       "\"event\":\"fast_bridge_deposit_event\",\"data\":\x7b\"sender_id\":" ++
       "\"alice.near\",\"token\":\"token.near\",\"amount\":\"300\"\x7d\x7d").data := by
  rfl

/-! ## Parse/render round-trip machinery -/

/-- Characters that render into a JSON string without escaping. -/
def safeChar (c : Char) : Bool := !(c = '"') && !(c = '\\')

mutual
/-- JSON values whose strings (and keys) need no escaping. -/
def safeJson : Json → Bool
  | .null => true
  | .num _ => true
  | .str s => s.all safeChar
  | .obj ms => safeMembers ms

def safeMembers : JsonMembers → Bool
  | .nil => true
  | .cons k v r => k.all safeChar && safeJson v && safeMembers r
end

/-- The next character, if any, is not a decimal digit (so a greedy
number parse stops exactly at the rendered digits). -/
def headNotDigit : List Char → Bool
  | [] => true
  | c :: _ => !(isDigitChar c)

theorem isDigitChar_digitChar (d : Nat) (h : d < 10) :
    isDigitChar (digitChar d) = true := by
  interval_cases d <;> decide

theorem digitChar_val (d : Nat) (h : d < 10) :
    (digitChar d).toNat - 48 = d := by
  interval_cases d <;> decide

theorem digit_not_ws (c : Char) (h : isDigitChar c = true) :
    isWsChar c = false := by
  cases hws : isWsChar c
  · rfl
  · exfalso
    simp only [isWsChar, Bool.or_eq_true, decide_eq_true_eq] at hws
    rcases hws with ((h1 | h1) | h1) | h1 <;> subst h1 <;>
      exact absurd h (by decide)

theorem digit_ne_of (c d : Char) (h : isDigitChar c = true)
    (hd : isDigitChar d = false) : c ≠ d := by
  intro heq
  subst heq
  rw [h] at hd
  cases hd

theorem natDigits_all (n : Nat) : (natDigits n).all isDigitChar = true := by
  induction n using Nat.strong_induction_on with
  | _ n ih =>
    rw [natDigits_step]
    by_cases hn : n < 10
    · rw [if_pos hn]
      simp [isDigitChar_digitChar n hn]
    · rw [if_neg hn]
      rw [List.all_append]
      have h1 := ih (n / 10) (Nat.div_lt_self (by omega) (by norm_num))
      have h2 : isDigitChar (digitChar (n % 10)) = true :=
        isDigitChar_digitChar (n % 10) (by omega)
      simp [h1, h2]

theorem natDigits_head (n : Nat) :
    ∃ c cs, natDigits n = c :: cs ∧ isDigitChar c = true := by
  induction n using Nat.strong_induction_on with
  | _ n ih =>
    rw [natDigits_step]
    by_cases hn : n < 10
    · rw [if_pos hn]
      exact ⟨digitChar n, [], rfl, isDigitChar_digitChar n hn⟩
    · rw [if_neg hn]
      obtain ⟨c, cs, h1, h2⟩ :=
        ih (n / 10) (Nat.div_lt_self (by omega) (by norm_num))
      exact ⟨c, cs ++ [digitChar (n % 10)], by rw [h1]; rfl, h2⟩

theorem digitsVal_append_last (ds : List Char) (c : Char) :
    digitsVal (ds ++ [c]) = 10 * digitsVal ds + (c.toNat - 48) := by
  simp [digitsVal, List.foldl_append]

theorem digitsVal_natDigits (n : Nat) : digitsVal (natDigits n) = n := by
  induction n using Nat.strong_induction_on with
  | _ n ih =>
    rw [natDigits_step]
    by_cases hn : n < 10
    · rw [if_pos hn]
      have : digitsVal [digitChar n] = (digitChar n).toNat - 48 := by
        simp [digitsVal]
      rw [this, digitChar_val n hn]
    · rw [if_neg hn, digitsVal_append_last,
        ih (n / 10) (Nat.div_lt_self (by omega) (by norm_num)),
        digitChar_val (n % 10) (by omega)]
      omega

theorem takeDigits_append (ds rest : List Char)
    (h : ds.all isDigitChar = true) (hr : headNotDigit rest = true) :
    takeDigits (ds ++ rest) = (ds, rest) := by
  induction ds with
  | nil =>
    cases rest with
    | nil => rfl
    | cons c r =>
      simp only [headNotDigit, Bool.not_eq_true'] at hr
      simp [takeDigits, hr]
  | cons c cs ih =>
    simp only [List.all_cons, Bool.and_eq_true] at h
    simp [takeDigits, h.1, ih h.2]

theorem escapeChars_safe (s : List Char) (h : s.all safeChar = true) :
    escapeChars s = s := by
  induction s with
  | nil => rfl
  | cons c cs ih =>
    simp only [List.all_cons, Bool.and_eq_true, safeChar,
      Bool.not_eq_true', decide_eq_false_iff_not] at h
    simp [escapeChars, escapeChar, h.1.1, h.1.2, ih h.2]

theorem parseStrChars_safe (s rest : List Char) (h : s.all safeChar = true) :
    parseStrChars (s ++ '"' :: rest) = some (s, rest) := by
  induction s with
  | nil => rfl
  | cons c cs ih =>
    simp only [List.all_cons, Bool.and_eq_true, safeChar,
      Bool.not_eq_true', decide_eq_false_iff_not] at h
    rw [List.cons_append]
    simp [parseStrChars, h.1.1, h.1.2, ih h.2]

theorem skipWs_cons_not_ws (c : Char) (cs : List Char)
    (h : isWsChar c = false) : skipWs (c :: cs) = c :: cs := by
  simp [skipWs, h]

theorem renderJson_length_pos (v : Json) : 0 < (renderJson v).length := by
  cases v with
  | null => simp [renderJson]
  | num n =>
    obtain ⟨c, cs, h, -⟩ := natDigits_head n
    simp [renderJson, h]
  | str s => simp [renderJson]
  | obj ms =>
    cases ms with
    | nil => simp [renderJson]
    | cons k v r => simp [renderJson_obj_cons]

theorem renderMemberK_length (k : List Char) (v : Json) :
    (renderMemberK k v).length =
      (escapeChars k).length + (renderJson v).length + 3 := by
  simp [renderMemberK]
  omega

/-- Fuel-indexed parse/render round trip: rendering a safe value and
parsing it back (with fuel at least the rendered length) recovers the
value, for the value parser and the member parser simultaneously. -/
theorem parse_render (fuel : Nat) :
    (∀ v rest, safeJson v = true → (renderJson v).length < fuel →
      headNotDigit rest = true →
      parseVal fuel (renderJson v ++ rest) = some (v, rest)) ∧
    (∀ k v r rest, k.all safeChar = true → safeJson v = true →
      safeMembers r = true →
      (renderMemberK k v).length + (renderTail r).length + 1 ≤ fuel →
      parseMembers fuel (renderMemberK k v ++ renderTail r ++ '}' :: rest) =
        some (.cons k v r, rest)) := by
  induction fuel using Nat.strong_induction_on with
  | _ fuel ih =>
    cases fuel with
    | zero =>
      constructor
      · intro v rest _ hlen _
        omega
      · intro k v r rest _ _ _ hlen
        omega
    | succ f =>
      constructor
      · intro v rest hsafe hlen hrest
        cases v with
        | null => rfl
        | num n =>
          obtain ⟨c, cs, hnd, hdig⟩ := natDigits_head n
          have hws : isWsChar c = false := digit_not_ws c hdig
          have h1 : c ≠ '{' := digit_ne_of c '{' hdig (by decide)
          have h2 : c ≠ '"' := digit_ne_of c '"' hdig (by decide)
          have h3 : c ≠ 'n' := digit_ne_of c 'n' hdig (by decide)
          have htd : takeDigits (natDigits n ++ rest) = (natDigits n, rest) :=
            takeDigits_append _ _ (natDigits_all n) hrest
          have hdv := digitsVal_natDigits n
          rw [hnd] at htd hdv
          rw [List.cons_append] at htd
          rw [show renderJson (.num n) = natDigits n from rfl, hnd,
            List.cons_append, parseVal, skipWs_cons_not_ws c _ hws]
          simp only [if_neg h1, if_neg h2, if_neg h3, if_pos hdig, htd, hdv]
        | str s =>
          have hs : s.all safeChar = true := by simpa [safeJson] using hsafe
          have hshape : renderJson (.str s) ++ rest =
              '"' :: (escapeChars s ++ '"' :: rest) := by
            simp [renderJson, List.append_assoc]
          rw [hshape, escapeChars_safe s hs, parseVal]
          simp +decide [skipWs, parseStrChars_safe s rest hs]
        | obj ms =>
          cases ms with
          | nil => rfl
          | cons k v r =>
            have hsafe' : k.all safeChar = true ∧ safeJson v = true ∧
                safeMembers r = true := by
              have hh := hsafe
              simp only [safeJson, safeMembers, Bool.and_eq_true] at hh
              exact ⟨hh.1.1, hh.1.2, hh.2⟩
            have hlenobj : (renderJson (.obj (.cons k v r))).length =
                (renderMemberK k v).length + (renderTail r).length + 2 := by
              rw [renderJson_obj_cons]
              simp [List.length_append]
              omega
            have hlen' : (renderMemberK k v).length +
                (renderTail r).length + 1 ≤ f := by omega
            have hQ := (ih f (Nat.lt_succ_self f)).2 k v r rest hsafe'.1
              hsafe'.2.1 hsafe'.2.2 hlen'
            have hhead : renderMemberK k v ++ renderTail r ++ '}' :: rest =
                '"' :: (escapeChars k ++ '"' :: ':' :: renderJson v ++
                  (renderTail r ++ '}' :: rest)) := by
              simp [renderMemberK, List.append_assoc]
            have hshape : renderJson (.obj (.cons k v r)) ++ rest =
                '{' :: (renderMemberK k v ++ renderTail r ++ '}' :: rest) := by
              rw [renderJson_obj_cons]
              simp [List.append_assoc]
            rw [hhead] at hQ
            simp only [List.append_assoc, List.cons_append] at hQ
            rw [hshape, hhead, parseVal]
            simp +decide [skipWs, List.append_assoc, List.cons_append, hQ]
      · intro k v r rest hk hv hr hfuel
        have hrmkl := renderMemberK_length k v
        have hesc := escapeChars_safe k hk
        have hrjpos := renderJson_length_pos v
        have hrjlen : (renderJson v).length < f := by
          rw [hesc] at hrmkl
          omega
        have hshape : renderMemberK k v ++ renderTail r ++ '}' :: rest =
            '"' :: (k ++ '"' :: ':' ::
              (renderJson v ++ (renderTail r ++ '}' :: rest))) := by
          simp [renderMemberK, hesc, List.append_assoc]
        have hstr := parseStrChars_safe k
          (':' :: (renderJson v ++ (renderTail r ++ '}' :: rest))) hk
        have hhnd : headNotDigit (renderTail r ++ '}' :: rest) = true := by
          cases r <;> rfl
        have hpv := (ih f (Nat.lt_succ_self f)).1 v
          (renderTail r ++ '}' :: rest) hv hrjlen hhnd
        rw [hshape, parseMembers]
        cases r with
        | nil =>
          simp only [renderTail, List.nil_append] at hstr hpv
          simp +decide [skipWs, renderTail, List.nil_append, hstr, hpv]
        | cons k2 v2 r2 =>
          have hr2 : k2.all safeChar = true ∧ safeJson v2 = true ∧
              safeMembers r2 = true := by
            have hh := hr
            simp only [safeMembers, Bool.and_eq_true] at hh
            exact ⟨hh.1.1, hh.1.2, hh.2⟩
          have hrtl : (renderTail (.cons k2 v2 r2)).length =
              (renderMemberK k2 v2).length + (renderTail r2).length + 1 := by
            simp only [renderTail_cons, List.length_cons, List.length_append]
            omega
          have hrmk2pos : 4 ≤ (renderMemberK k v).length := by
            have := renderJson_length_pos v
            omega
          have hfuel2 : (renderMemberK k2 v2).length +
              (renderTail r2).length + 1 ≤ f := by omega
          have hQ2 := (ih f (Nat.lt_succ_self f)).2 k2 v2 r2 rest hr2.1
            hr2.2.1 hr2.2.2 hfuel2
          have htail : renderTail (.cons k2 v2 r2) ++ '}' :: rest =
              ',' :: (renderMemberK k2 v2 ++ renderTail r2 ++ '}' :: rest) := by
            rw [renderTail_cons]
            simp [List.append_assoc]
          simp only [List.append_assoc, List.cons_append] at hstr hpv hQ2 htail
          rw [htail] at hstr hpv
          rw [show renderTail (.cons k2 v2 r2) ++ '}' :: rest =
            ',' :: (renderMemberK k2 v2 ++ (renderTail r2 ++ '}' :: rest))
            from htail]
          simp +decide [skipWs, List.append_assoc, List.cons_append, hstr,
            hpv, hQ2]

/-- Rendering a safe value and parsing the result back with
`parseJson` recovers the value. -/
theorem parseJson_render (v : Json) (h : safeJson v = true) :
    parseJson (renderJson v) = some v := by
  have hp := (parse_render ((renderJson v).length + 1)).1 v [] h
    (Nat.lt_succ_self _) rfl
  rw [List.append_nil] at hp
  rw [parseJson, hp]
  rfl

theorem stripPrefixChars_eq_some (p s t : List Char) :
    stripPrefixChars p s = some t ↔ s = p ++ t := by
  induction p generalizing s with
  | nil => simp [stripPrefixChars]
  | cons c cs ih =>
    cases s with
    | nil => simp [stripPrefixChars]
    | cons d ds =>
      rw [stripPrefixChars]
      by_cases hcd : c = d
      · subst hcd
        rw [if_pos rfl, ih]
        simp
      · rw [if_neg hcd]
        constructor
        · intro hcon
          exact Option.noConfusion hcon
        · intro hcon
          rw [List.cons_append] at hcon
          injection hcon with h1 h2
          exact absurd h1.symm hcd

/-! ## Claim C8 -/

/-- C8: `removePrefix` returns the parsed JSON body exactly when the
line starts with the literal prefix `EVENT_JSON:` (for such lines it
returns whatever the JSON parse of the remainder returns — the parsed
value, or absent when the remainder is invalid JSON); for any line not
starting with the prefix it returns absent. -/
theorem C8_removePrefix_spec (s : List Char) :
    (∀ t, s = EVENT_JSON_STR ++ t → removePrefix s = parseJson t) ∧
    ((¬ ∃ t, s = EVENT_JSON_STR ++ t) → removePrefix s = none) := by
  constructor
  · intro t ht
    rw [removePrefix, (stripPrefixChars_eq_some EVENT_JSON_STR s t).mpr ht]
  · intro hno
    rw [removePrefix]
    rcases hsp : stripPrefixChars EVENT_JSON_STR s with _ | t
    · rfl
    · exact absurd ⟨t, (stripPrefixChars_eq_some _ _ _).mp hsp⟩ hno

theorem C8_witness :
    removePrefix "EVENT_JSON:\x7b\"a\":1\x7d".data =
      some (.obj (.cons "a".data (.num 1) .nil)) ∧
    removePrefix "EVENT_JSON:notjson".data = none ∧
    removePrefix "no prefix".data = none := by
  refine ⟨?_, ?_, ?_⟩
  · rw [(C8_removePrefix_spec _).1 "\x7b\"a\":1\x7d".data (by rfl)]
    rfl
  · rw [(C8_removePrefix_spec _).1 "notjson".data (by rfl)]
    rfl
  · refine (C8_removePrefix_spec _).2 ?_
    rintro ⟨t, ht⟩
    rw [show EVENT_JSON_STR ++ t = 'E' :: ("VENT_JSON:".data ++ t) from rfl]
      at ht
    injection ht with h1 h2
    exact absurd h1 (by decide)

/-! ## JSON safety of the emitted envelope -/

theorem toNat_ofNat_small (b : Nat) (h : b < 128) :
    (Char.ofNat b).toNat = b := by
  have hv : b.isValidChar := Or.inl (by omega)
  simp [Char.ofNat, hv, Char.ofNatAux, Char.toNat, UInt32.toNat,
    UInt32.ofNat', BitVec.toNat_ofNat]

theorem ofNat_ne_char (b : Nat) (c : Char) (hb : b < 128)
    (hne : b ≠ c.toNat) : Char.ofNat b ≠ c := by
  intro heq
  have h1 := toNat_ofNat_small b hb
  rw [heq] at h1
  exact hne h1.symm

/-- Account-id bytes come from the NEAR account alphabet. -/
theorem validAccountLoop_mem (l : List Nat) (s : Bool)
    (h : validAccountLoop l s = true) :
    ∀ b ∈ l, (97 ≤ b ∧ b ≤ 122) ∨ (48 ≤ b ∧ b ≤ 57) ∨
      b = 45 ∨ b = 95 ∨ b = 46 := by
  induction l generalizing s with
  | nil => intro b hb; cases hb
  | cons c r ih =>
    intro b hb
    rw [validAccountLoop] at h
    by_cases h1 : ((97 ≤ c && c ≤ 122) || (48 ≤ c && c ≤ 57)) = true
    · rw [if_pos h1] at h
      rcases List.mem_cons.mp hb with hbc | hbr
      · subst hbc
        simp only [Bool.and_eq_true, Bool.or_eq_true, decide_eq_true_eq] at h1
        omega
      · exact ih false h b hbr
    · rw [if_neg h1] at h
      by_cases h2 : (c = 45 || c = 95 || c = 46) = true
      · rw [if_pos h2] at h
        cases s with
        | true => cases h
        | false =>
          rcases List.mem_cons.mp hb with hbc | hbr
          · subst hbc
            simp only [Bool.or_eq_true, decide_eq_true_eq] at h2
            omega
          · exact ih true h b hbr
      · rw [if_neg h2] at h; cases h

theorem accountChars_safe (a : List Nat) (h : isValidAccountId a = true) :
    (a.map Char.ofNat).all safeChar = true := by
  have hloop : validAccountLoop a true = true := by
    simp only [isValidAccountId, Bool.and_eq_true] at h
    exact h.2
  have hmem := validAccountLoop_mem a true hloop
  rw [List.all_eq_true]
  intro c hc
  rw [List.mem_map] at hc
  obtain ⟨b, hb, rfl⟩ := hc
  have hcls := hmem b hb
  have hlt : b < 128 := by omega
  have h1 : Char.ofNat b ≠ '"' := ofNat_ne_char b '"' hlt (by
    have : ('"' : Char).toNat = 34 := by decide
    omega)
  have h2 : Char.ofNat b ≠ '\\' := ofNat_ne_char b '\\' hlt (by
    have : ('\\' : Char).toNat = 92 := by decide
    omega)
  simp [safeChar, h1, h2]

theorem digit_safe (c : Char) (h : isDigitChar c = true) :
    safeChar c = true := by
  have h1 : c ≠ '"' := digit_ne_of c '"' h (by decide)
  have h2 : c ≠ '\\' := digit_ne_of c '\\' h (by decide)
  simp [safeChar, h1, h2]

theorem natDigits_safe (n : Nat) : (natDigits n).all safeChar = true := by
  have h := natDigits_all n
  rw [List.all_eq_true] at h ⊢
  exact fun c hc => digit_safe c (h c hc)

theorem hexChar_safe (n : Nat) (h : n < 16) : safeChar (hexChar n) = true := by
  interval_cases n <;> decide

theorem hexEncode_safe (bs : List Nat)
    (h : bs.all (fun b => decide (b < 256)) = true) :
    (hexEncode bs).all safeChar = true := by
  induction bs with
  | nil => rfl
  | cons b r ih =>
    simp only [List.all_cons, Bool.and_eq_true, decide_eq_true_eq] at h
    simp [hexEncode, hexChar_safe (b / 16) (by omega),
      hexChar_safe (b % 16) (by omega), ih h.2]

/-- The invariants the Rust `Event` type carries by construction:
validated account ids and byte-valued addresses in every field. -/
def wfEvent : Event → Bool
  | .FastBridgeInitTransferEvent _ sender_id tm =>
    isValidAccountId sender_id && wfTransferMessage tm
  | .FastBridgeUnlockEvent _ recipient_id tm =>
    isValidAccountId recipient_id && wfTransferMessage tm
  | .FastBridgeLpUnlockEvent _ recipient_id tm =>
    isValidAccountId recipient_id && wfTransferMessage tm
  | .FastBridgeDepositEvent sender_id token _ =>
    isValidAccountId sender_id && isValidAccountId token
  | .FastBridgeWithdrawEvent sender_id recipient_id token _ =>
    (match sender_id with
     | none => true
     | some s => isValidAccountId s) &&
      isValidAccountId recipient_id && isValidAccountId token

theorem wfEthAddress_bytes (e : EthAddress) (h : wfEthAddress e = true) :
    e.bytes.all (fun b => decide (b < 256)) = true := by
  simp only [wfEthAddress, Bool.and_eq_true] at h
  exact h.2

theorem transferMessageToJson_safe (m : TransferMessage)
    (h : wfTransferMessage m = true) :
    safeJson (transferMessageToJson m) = true := by
  simp only [wfTransferMessage, wfTransferDataEthereum, wfTransferDataNear,
    Bool.and_eq_true] at h
  obtain ⟨⟨⟨⟨⟨-, ⟨⟨htn, hte⟩, -⟩⟩, ⟨hft, -⟩⟩, hrec⟩, -⟩, hasnd⟩ := h
  have h1 := accountChars_safe m.transfer.token_near htn
  have h2 := hexEncode_safe m.transfer.token_eth.bytes (wfEthAddress_bytes _ hte)
  have h3 := accountChars_safe m.fee.token hft
  have h4 := hexEncode_safe m.recipient.bytes (wfEthAddress_bytes _ hrec)
  have h5 : ∀ a, m.aurora_sender = some a →
      (hexEncode a.bytes).all safeChar = true := by
    intro a ha
    rw [ha] at hasnd
    exact hexEncode_safe a.bytes (wfEthAddress_bytes _ (by simpa using hasnd))
  rcases hv1 : m.valid_till_block_height with _ | vtbh <;>
    rcases ha1 : m.aurora_sender with _ | asnd <;>
    simp +decide [transferMessageToJson, JsonMembers.ofList, safeJson,
      safeMembers, accountToJson, ethAddressToJson, u128ToJson, optionToJson,
      hv1, ha1, h1, h2, h3, h4, natDigits_safe] <;>
    simpa using h5 asnd ha1

theorem eventData_safe (e : Event) (h : wfEvent e = true) :
    safeJson (eventData e) = true := by
  cases e with
  | FastBridgeInitTransferEvent nonce sender_id tm =>
    simp only [wfEvent, Bool.and_eq_true] at h
    have htm := transferMessageToJson_safe tm h.2
    simp +decide [eventData, JsonMembers.ofList, safeJson, safeMembers,
      accountToJson, u128ToJson, natDigits_safe, accountChars_safe _ h.1]
    exact htm
  | FastBridgeUnlockEvent nonce recipient_id tm =>
    simp only [wfEvent, Bool.and_eq_true] at h
    have htm := transferMessageToJson_safe tm h.2
    simp +decide [eventData, JsonMembers.ofList, safeJson, safeMembers,
      accountToJson, u128ToJson, natDigits_safe, accountChars_safe _ h.1]
    exact htm
  | FastBridgeLpUnlockEvent nonce recipient_id tm =>
    simp only [wfEvent, Bool.and_eq_true] at h
    have htm := transferMessageToJson_safe tm h.2
    simp +decide [eventData, JsonMembers.ofList, safeJson, safeMembers,
      accountToJson, u128ToJson, natDigits_safe, accountChars_safe _ h.1]
    exact htm
  | FastBridgeDepositEvent sender_id token amount =>
    simp only [wfEvent, Bool.and_eq_true] at h
    simp +decide [eventData, JsonMembers.ofList, safeJson, safeMembers,
      accountToJson, u128ToJson, natDigits_safe, accountChars_safe _ h.1,
      accountChars_safe _ h.2]
  | FastBridgeWithdrawEvent sender_id recipient_id token amount =>
    simp only [wfEvent, Bool.and_eq_true] at h
    obtain ⟨⟨hs, hr⟩, ht⟩ := h
    cases sender_id with
    | none =>
      simp +decide [eventData, JsonMembers.ofList, safeJson, safeMembers,
        accountToJson, u128ToJson, optionToJson, natDigits_safe,
        accountChars_safe _ hr, accountChars_safe _ ht]
    | some s =>
      simp +decide [eventData, JsonMembers.ofList, safeJson, safeMembers,
        accountToJson, u128ToJson, optionToJson, natDigits_safe,
        accountChars_safe _ hr, accountChars_safe _ ht,
        accountChars_safe _ (by simpa using hs)]

/-- The envelope value that `emit_event` renders: the four NEP-297 keys
with the constant standard and version, the snake_case tag, and the
variant's field object. -/
def envelopeJson (e : Event) : Json :=
  .obj (.ofList
    [("standard".data, .str STANDARD),
     ("version".data, .str VERSION),
     ("event".data, .str (eventTag e)),
     ("data".data, eventData e)])

theorem emit_event_shape (e : Event) :
    emit_event e = EVENT_JSON_STR ++ renderJson (envelopeJson e) := by
  cases e <;> rfl

theorem eventTag_safe (e : Event) : (eventTag e).all safeChar = true := by
  cases e <;> rfl

theorem envelopeJson_safe (e : Event) (h : wfEvent e = true) :
    safeJson (envelopeJson e) = true := by
  have hd := eventData_safe e h
  have ht := eventTag_safe e
  simp +decide [envelopeJson, JsonMembers.ofList, safeJson, safeMembers,
    ht, hd]

/-! ## Claim C10 -/

/-- C10: for every `Event` value (with the validated account ids and
byte-valued addresses its Rust type guarantees), `removePrefix` applied
to the single line written by `emit` returns a present JSON object with
`standard = "nep297"`, `version = "1.0.0"`, the snake_case variant tag
under `event`, and the object of the variant's fields under `data`. -/
theorem C10_emit_removePrefix (e : Event) (h : wfEvent e = true) :
    removePrefix (emit_event e) =
      some (.obj (.ofList
        [("standard".data, .str STANDARD),
         ("version".data, .str VERSION),
         ("event".data, .str (eventTag e)),
         ("data".data, eventData e)])) := by
  rw [emit_event_shape, removePrefix,
    (stripPrefixChars_eq_some EVENT_JSON_STR _
      (renderJson (envelopeJson e))).mpr rfl]
  exact parseJson_render _ (envelopeJson_safe e h)

theorem C10_witness :
    removePrefix (emit_event (.FastBridgeInitTransferEvent 238
      (strToBytes "sender.near") exampleTransferMessage2)) =
      some (.obj (.ofList
        [("standard".data, .str STANDARD),
         ("version".data, .str VERSION),
         ("event".data,
           .str (eventTag (.FastBridgeInitTransferEvent 238
             (strToBytes "sender.near") exampleTransferMessage2))),
         ("data".data,
           eventData (.FastBridgeInitTransferEvent 238
             (strToBytes "sender.near") exampleTransferMessage2))])) :=
  C10_emit_removePrefix
    (.FastBridgeInitTransferEvent 238 (strToBytes "sender.near")
      exampleTransferMessage2) (by decide)

end FastBridgeCommon
